import Mathlib

/-!
Shallow embedding of the DSDA (discrete-steepest-descent) driver of
`dsda_gdp_reactor.py` and of the automatic-reformulation functions of
`reformulation_functions.py` from the `dsda-gdp` repository.

Conventions used throughout:
* Python lists of integers become `List Int`; Python dicts keyed by small
  integers become association lists `List (Nat × _)` kept in insertion
  order (Python dicts iterate in insertion order), and the bound
  dictionaries `min_allowed` / `max_allowed` (keyed `1..n`) become total
  functions `Nat → Int`.
* The external NLP solve `fnlp_gdp(NT, x, provide_init, init)` is an
  external collaborator (GAMS/msnlp); it is modelled as an oracle
  `Solver Init` mapping the fixed external vector and the optional
  warm start to a `SolveResult`: a status, the objective value
  (a rational standing for the float reported by the solver) and the
  warm-start dictionary, which stays opaque (type parameter `Init`).
  The `NT` argument only parameterises the Pyomo model built inside
  `fnlp_gdp`, so it is absorbed into the oracle.
* The two `while` loops of `dsda` are given explicit fuel; every claim
  proved about them is proved for every fuel value.
* Each driver state additionally carries instrumentation that the Python
  code keeps implicitly: the `route` entries are annotated with the value
  of `fmin` at the moment of the `route.append(...)` call, and `calls`
  records the vectors passed to `fnlp_gdp` from EXPLORE
  (`evaluate_neighbors`) and LINE-SEARCH (`move_and_evaluate`) steps.
-/

namespace DsdaGdp

/-- Status of a subproblem solve, as compared against `pe.SolverStatus.ok`
in the source; only `ok` is ever treated as usable. -/
inductive SolverStatus
  | ok
  | infeasible
  | error
deriving DecidableEq

/-- Result of one `fnlp_gdp` call: `(m-objective, solver status, initialization)`.
`obj` models `pe.value(m.obj)` and `init` the warm-start dictionary. -/
structure SolveResult (Init : Type) where
  status : SolverStatus
  obj : ℚ
  init : Init

/-- Oracle for `fnlp_gdp NT x provide_init init`: the vector of fixed
external variables and the optional warm start determine the result. -/
abbrev Solver (Init : Type) : Type := List Int → Option Init → SolveResult Init

/-- Default tolerance `tol=0.00001` of `evaluate_neighbors` and
`move_and_evaluate`. -/
def tolDefault : ℚ := 1/100000

/-- Pointwise sum `list(map(sum, zip(a, b)))` used to move a point along a
direction; like Python `zip` it truncates to the shorter list. -/
def zipAdd (a b : List Int) : List Int := (a.zip b).map (fun p => p.1 + p.2)

/-- Bound-check loop of `my_neighbors` / `move_and_evaluate`: coordinate `j`
(0-based) is compared against the bound dictionaries at key `j+1`; the
candidate passes when every `j < n` is within its bounds (`checked == n`
in the source). -/
def inBoundsUpTo (v : List Int) (n : Nat) (lo hi : Nat → Int) : Bool :=
  (List.range n).all (fun j => decide (lo (j+1) ≤ v.getD j 0 ∧ v.getD j 0 ≤ hi (j+1)))

/-- Column `i` (0-based) of the matrix `np.concatenate((np.eye(n), -np.eye(n)), axis=1)`
read off row by row, exactly as the inner loop of `neighborhood_k_eq_2`
builds `direct`. -/
def nhDirection (num_ext i : Nat) : List Int :=
  (List.range num_ext).map (fun j =>
    if i < num_ext then (if j = i then (1 : Int) else 0)
    else (if j + num_ext = i then (-1 : Int) else 0))

/-- `neighborhood_k_eq_2(num_ext)`: the dict `{i+1: column i}` for
`i in range(2*num_ext)`, as an insertion-ordered association list. -/
def neighborhood_k_eq_2 (num_ext : Nat) : List (Nat × List Int) :=
  (List.range (2*num_ext)).map (fun i => (i+1, nhDirection num_ext i))

/-- Keep-predicate of the `cheating` filter of `my_neighbors`: the source
pops key `i` when `new_neighbors[i][1] - new_neighbors[i][0] > 0`, so an
entry is kept exactly when that difference is not positive. -/
def cheatKeep (v : List Int) : Bool := decide (¬ (v.getD 1 0 - v.getD 0 0 > 0))

/-- `my_neighbors(start, neighborhood, optimize, min_allowed, max_allowed, cheating)`:
builds `{0: start} ∪ {i: start + neighborhood[i]}`, then (when `optimize`)
keeps the entries passing the box-bound check over
`num_vars = len(neighbors[0]) = len(start)` coordinates, and (when
`cheating`) additionally drops entries with `v[1] - v[0] > 0`. -/
def my_neighbors (start : List Int) (neighborhood : List (Nat × List Int))
    (optimize : Bool) (min_allowed max_allowed : Nat → Int) (cheating : Bool) :
    List (Nat × List Int) :=
  let neighbors := (0, start) :: neighborhood.map (fun p => (p.1, zipAdd start p.2))
  if optimize then
    let num_vars := start.length
    let new_neighbors := neighbors.filter (fun p => inBoundsUpTo p.2 num_vars min_allowed max_allowed)
    if cheating then new_neighbors.filter (fun p => cheatKeep p.2)
    else new_neighbors
  else neighbors

/-- Return tuple `(fmin, best_var, best_dir, best_init, improve)` of
`evaluate_neighbors`, with named fields. -/
structure ENResult (Init : Type) where
  fmin : ℚ
  best_var : List Int
  best_dir : Nat
  best_init : Init
  improve : Bool
deriving DecidableEq

/-- Scan loop of `evaluate_neighbors`: for each remaining neighbor the
subproblem is solved from the warm start `w` (the `init` argument of
`evaluate_neighbors`, which the source never updates inside the loop), and
the running best is replaced when the solve status is `ok` and
`act_obj + tol < fmin` against the running `fmin`. -/
def en_loop {Init : Type} (solver : Solver Init) (w : Init) (tol : ℚ) :
    List (Nat × List Int) → ENResult Init → ENResult Init
  | [], s => s
  | (k, v) :: rest, s =>
    let r := solver v (some w)
    if r.status = SolverStatus.ok ∧ r.obj + tol < s.fmin then
      en_loop solver w tol rest ⟨r.obj, v, k, r.init, true⟩
    else
      en_loop solver w tol rest s

/-- Effect of `temp.pop(0, None)` on the (insertion-ordered, unique-key)
dict: the entry with key `0` disappears, every other entry is untouched. -/
def dict_pop0 (l : List (Nat × List Int)) : List (Nat × List Int) :=
  l.filter (fun p => decide (p.1 ≠ 0))

/-- `evaluate_neighbors(ext_vars, init, fmin, tol)`. The first component is
the returned tuple; the second is the post-call state of the caller's
`ext_vars` dict (the source aliases it as `temp` and pops key `0` in
place, so the caller observes the popped dict afterwards). `best_var`
defaults to `ext_vars[0]`, read before the pop. -/
def evaluate_neighbors {Init : Type} (solver : Solver Init)
    (ext_vars : List (Nat × List Int)) (w : Init) (fmin : ℚ) (tol : ℚ) :
    ENResult Init × List (Nat × List Int) :=
  let best_var := (List.lookup 0 ext_vars).getD []
  let temp := dict_pop0 ext_vars
  (en_loop solver w tol temp ⟨fmin, best_var, 0, w, false⟩, temp)

/-- Return tuple `(fmin, best_var, moved, best_init)` of `move_and_evaluate`. -/
structure MEResult (Init : Type) where
  fmin : ℚ
  best_var : List Int
  moved : Bool
  best_init : Init
deriving DecidableEq

/-- `move_and_evaluate(start, init, fmin, direction, optimize, min_allowed,
max_allowed, tol)`: moves one step along `direction`; with `optimize` the
moved point is solved only after passing the box-bound check over all of
its coordinates, and accepted only when the status is `ok` and
`act_obj + tol < fmin`; without `optimize` the bound check is skipped and
the acceptance test is `act_obj < fmin` (no tolerance), as in the source. -/
def move_and_evaluate {Init : Type} (solver : Solver Init) (start : List Int) (w : Init)
    (fmin : ℚ) (direction : List Int) (optimize : Bool) (lo hi : Nat → Int) (tol : ℚ) :
    MEResult Init :=
  let moved_point := zipAdd start direction
  if optimize then
    if inBoundsUpTo moved_point moved_point.length lo hi then
      let r := solver moved_point (some w)
      if r.status = SolverStatus.ok ∧ r.obj + tol < fmin then ⟨r.obj, moved_point, true, r.init⟩
      else ⟨fmin, start, false, w⟩
    else ⟨fmin, start, false, w⟩
  else
    let r := solver moved_point (some w)
    if r.status = SolverStatus.ok ∧ r.obj < fmin then ⟨r.obj, moved_point, true, r.init⟩
    else ⟨fmin, start, false, w⟩

/-- State of the inner (`go_2`) line-search loop of `dsda`: the incumbent
value, current point, current warm start, the annotated route and the
trace of vectors handed to the subproblem solver. -/
structure LSState (Init : Type) where
  fmin : ℚ
  best_var : List Int
  best_init : Init
  route : List (List Int × ℚ)
  calls : List (List Int)

/-- Vectors `move_and_evaluate` hands to `fnlp_gdp` in one attempt with
`optimize=True`: the moved point exactly when it passes the bound check. -/
def move_calls (start dir : List Int) (lo hi : Nat → Int) : List (List Int) :=
  let moved_point := zipAdd start dir
  if inBoundsUpTo moved_point moved_point.length lo hi then [moved_point] else []

/-- Inner `while go_2` loop of `dsda`: repeatedly `move_and_evaluate` along
the same direction; an accepted step is appended to the route and becomes
the current point; the loop stops at the first rejected step (or when the
fuel runs out). -/
def go2_loop {Init : Type} (solver : Solver Init) (lo hi : Nat → Int) (dir : List Int) :
    Nat → LSState Init → LSState Init
  | 0, s => s
  | fuel+1, s =>
    let m := move_and_evaluate solver s.best_var s.best_init s.fmin dir true lo hi tolDefault
    let c := s.calls ++ move_calls s.best_var dir lo hi
    if m.moved then
      go2_loop solver lo hi dir fuel ⟨m.fmin, m.best_var, m.best_init, s.route ++ [(m.best_var, m.fmin)], c⟩
    else
      ⟨m.fmin, m.best_var, m.best_init, s.route, c⟩

/-- State of the outer (`go_1`) loop of `dsda`. `init` is the warm start
obtained from the very first solve; the source never reassigns the `init`
variable, so every EXPLORE scan uses it. -/
structure DsdaState (Init : Type) where
  ext_var : List Int
  init : Init
  fmin : ℚ
  route : List (List Int × ℚ)
  calls : List (List Int)

/-- Lower-bound dict `min_allowed={1:1, 2:1}` hardcoded in `dsda`. -/
def dsdaLo : Nat → Int := fun _ => 1

/-- Upper-bound dict `max_allowed={1:5, 2:5}` hardcoded in `dsda`. -/
def dsdaHi : Nat → Int := fun _ => 5

/-- Outer `while go_1` loop of `dsda`: EXPLORE the filtered neighbors of the
incumbent; on improvement append the winner to the route and line-search
along the winning direction, then continue from the last accepted point;
otherwise stop. -/
def go1_loop {Init : Type} (solver : Solver Init) (neighborhood : List (Nat × List Int))
    (lo hi : Nat → Int) (fuel2 : Nat) : Nat → DsdaState Init → DsdaState Init
  | 0, s => s
  | fuel+1, s =>
    let neighbors := my_neighbors s.ext_var neighborhood true lo hi true
    let R := (evaluate_neighbors solver neighbors s.init s.fmin tolDefault).1
    let calls1 := s.calls ++ (dict_pop0 neighbors).map (fun p => p.2)
    if R.improve then
      let dir := (List.lookup R.best_dir neighborhood).getD []
      let s2 := go2_loop solver lo hi dir fuel2
        ⟨R.fmin, R.best_var, R.best_init, s.route ++ [(R.best_var, R.fmin)], calls1⟩
      go1_loop solver neighborhood lo hi fuel2 fuel ⟨s2.best_var, s.init, s2.fmin, s2.route, s2.calls⟩
    else
      ⟨s.ext_var, s.init, R.fmin, s.route, calls1⟩

/-- Shape of the value returned by `external_init(NT)`: the two integer
values read off the auxiliary feasibility model are returned as a
two-element list. The values themselves come from the external solver,
so they are parameters here. -/
def external_init (v1 v2 : Int) : List Int := [v1, v2]

/-- `dsda(NT, '2')`: initialize from `external_init`, solve once to obtain
`fmin` and the initial warm start, build the `k=2` neighborhood of
dimension `len(ext_var)`, and run the outer loop with the hardcoded bound
dicts. The route starts with the initial point. -/
def dsda {Init : Type} (solver : Solver Init) (v1 v2 : Int) (fuel1 fuel2 : Nat) :
    DsdaState Init :=
  let ext_var := external_init v1 v2
  let r0 := solver ext_var none
  let neighborhood := neighborhood_k_eq_2 ext_var.length
  go1_loop solver neighborhood dsdaLo dsdaHi fuel2 fuel1
    ⟨ext_var, r0.init, r0.obj, [(ext_var, r0.obj)], []⟩

/-- Oracle standing for a run in which every subproblem solve reports a
non-`ok` status (used to instantiate theorems at concrete inputs). -/
def errorSolver : Solver Unit := fun _ _ => ⟨SolverStatus.error, 0, ()⟩

/-- Point reached after `k` accepted steps of size `d` from `x`. -/
def addSteps (x d : List Int) : Nat → List Int
  | 0 => x
  | k+1 => zipAdd (addSteps x d k) d

/-- The line of points visited by `k` consecutive accepted steps. -/
def stepPoints (x d : List Int) (k : Nat) : List (List Int) :=
  (List.range k).map (fun i => addSteps x d (i+1))

/-- Box-bound property of the dict bounds hardcoded in `dsda`
(`min_allowed={1:1,2:1}`, `max_allowed={1:5,2:5}`, i.e. `[1, NT]` for the
`NT = 5` run of the module's main block). -/
def inDsdaBox (x : List Int) : Prop :=
  ∀ j, j < x.length → dsdaLo (j+1) ≤ x.getD j 0 ∧ x.getD j 0 ≤ dsdaHi (j+1)

instance (x : List Int) : Decidable (inDsdaBox x) := by
  unfold inDsdaBox; infer_instance

/-!
Embedding of `reformulation_functions.py`. A Reformulation Entry stores the
reformulation metadata for one discovered `exactly` constraint. The entry's
Boolean variables are identified with their 0-based position in the sorted
list `Boolean_vars`; position `c` carries the reference-set index value
`Boolean_vars_ordered_index[c]`. The fix state of the Booleans of one entry
is a cell map `Nat → Option Bool` (`none` = unfixed, as on a fresh model;
`some b` = fixed to `b`), with only the cells `c < numBooleans` meaningful.
-/

/-- One value of `reformulation_dict`: `exactly_number` and the
reference-set index values of the sorted Boolean variables
(`Boolean_vars_ordered_index`). Bounds are derived:
`Ext_var_lower_bound = 1`, `Ext_var_upper_bound = len(sorted_args)`. -/
structure RefEntry where
  exactly_number : Nat
  Boolean_vars_ordered_index : List Int
deriving DecidableEq, Inhabited

/-- Number of Boolean variables of the entry (`len(Boolean_vars)`). -/
def RefEntry.numBooleans (e : RefEntry) : Nat := e.Boolean_vars_ordered_index.length

/-- `Ext_var_lower_bound`, always `1` in the source. -/
def RefEntry.Ext_var_lower_bound (_ : RefEntry) : Nat := 1

/-- `Ext_var_upper_bound = len(sorted_args)`. -/
def RefEntry.Ext_var_upper_bound (e : RefEntry) : Nat := e.numBooleans

/-- Inner loop `for k in range(1, len(Boolean_vars)+1)` of the first pass of
`external_ref`: when `x[pos] == k`, cell `k-1` is fixed `True`. The
recursion processes `k = 1, ..., numB`. -/
def fix_slot_inner (xp : Int) : Nat → (Nat → Option Bool) → (Nat → Option Bool)
  | 0, st => st
  | k+1, st =>
    let st1 := fix_slot_inner xp k st
    if xp = ((k : Int) + 1) then (fun c => if c = k then some true else st1 c) else st1

/-- Repetition loop `for j in range(exactly_number)` of the first pass of
`external_ref`: slot `j` of the entry reads `x[off + j]` (the running
`ext_var_position`) and runs the inner fix-True loop. -/
def fix_slots (x : List Int) (off numB : Nat) : Nat → (Nat → Option Bool) → (Nat → Option Bool)
  | 0, st => st
  | j+1, st => fix_slot_inner (x.getD (off + j) 0) numB (fix_slots x off numB j st)

/-- Second pass of `external_ref`: every still-unfixed Boolean of the entry
(cells `c < numB`) is fixed `False`. -/
def fix_false_pass (numB : Nat) (st : Nat → Option Bool) : Nat → Option Bool :=
  fun c =>
    if c < numB then
      match st c with
      | none => some false
      | some b => some b
    else st c

/-- First pass of `external_ref` over all entries, threading the global
`ext_var_position` offset (it advances by `exactly_number` per entry).
Each entry starts from the fresh-model state (all Booleans unfixed). -/
def pass1 (x : List Int) : Nat → List RefEntry → List (Nat → Option Bool)
  | _, [] => []
  | off, e :: es =>
    fix_slots x off e.numBooleans e.exactly_number (fun _ => none)
      :: pass1 x (off + e.exactly_number) es

/-- Second pass of `external_ref` over all entries. -/
def pass2 : List RefEntry → List (Nat → Option Bool) → List (Nat → Option Bool)
  | e :: es, st :: sts => fix_false_pass e.numBooleans st :: pass2 es sts
  | _, _ => []

/-- Boolean-fixing effect of `external_ref(m, x, dict_extvar, logic_expr)`
on the reformulated entries: first pass fixes the selected Booleans `True`,
second pass fixes every remaining unfixed Boolean `False`. (The subsequent
`logic_expr` loop and the Pyomo disjunct-fixing / trivial-constraint
transformations touch other parts of the model, not the entry Booleans.) -/
def external_ref (x : List Int) (entries : List RefEntry) : List (Nat → Option Bool) :=
  pass2 entries (pass1 x 0 entries)

/-- Value of the running `ext_var_position` counter when entry `i` starts
being processed: the sum of `exactly_number` over the earlier entries. -/
def entryOffset (entries : List RefEntry) (i : Nat) : Nat :=
  ((entries.take i).map (fun e => e.exactly_number)).sum

/-- Final fix state of the Booleans of entry `i` after `external_ref`. -/
def entryState (x : List Int) (entries : List RefEntry) (i : Nat) : Nat → Option Bool :=
  (external_ref x entries).getD i (fun _ => none)

/-- One Boolean argument of an `exactly` constraint as seen by
`get_external_information`: its index value along the reference-set
dimension (`x.index()[expected_ordered_set_index[0]]`, or the whole scalar
index in the single-dimension branch) and the tuple of its index values
along the other dimensions. -/
structure BoolArg where
  refVal : Int
  otherVals : List Int
deriving DecidableEq, Inhabited

/-- Check building `verification_Other_Sets_listOFlists`: for every
non-reference dimension, all arguments carry the same index value as the
first argument. (In the single-dimension branch there are no other
dimensions and the check is vacuous.) -/
def verification_Other_Sets (args : List BoolArg) : Bool :=
  match args with
  | [] => true
  | a0 :: _ => args.all (fun a => a.otherVals == a0.otherVals)

/-- `sorted_args = sorted(c.body.args[1:], key=lambda x: x.index()[d])`:
Python `sorted` is a stable sort by the reference-dimension index value;
`List.insertionSort` is also a stable sort, so the two agree on every
input. -/
def sorted_args (args : List BoolArg) : List BoolArg :=
  args.insertionSort (fun a b => a.refVal ≤ b.refVal)

/-- Construction of one `reformulation_dict` entry from an eligible
`exactly` constraint (both branches of `get_external_information` reduce to
this once the arguments carry their reference / other index values): if the
other-dimension verification passes, the Booleans are sorted ascending by
reference index and the entry records the sorted index values. -/
def process_exactly (exactly_number : Nat) (args : List BoolArg) : Option RefEntry :=
  if verification_Other_Sets args then
    some ⟨exactly_number, (sorted_args args).map (fun a => a.refVal)⟩
  else none

/-- Entry-producing core of `get_external_information`: the eligible
`exactly` constraints (already matched to the Boolean family by name) are
processed in discovery order; constraints failing the other-dimension
verification are skipped. -/
def get_external_information (constraints : List (Nat × List BoolArg)) : List RefEntry :=
  constraints.filterMap (fun c => process_exactly c.1 c.2)

/-- Statement of claim C1 for entry `i`: every repetition slot `p` of the
entry fixes `True` exactly the Boolean at sorted position `x[p]-1` (whose
reference-set index is `Boolean_vars_ordered_index[x[p]-1]` by
construction), and every Boolean of the entry not selected by any slot is
fixed `False`. -/
def externalRefSpec (entries : List RefEntry) (x : List Int) (i : Nat) : Prop :=
  (∀ j, j < (entries.getD i default).exactly_number →
    entryState x entries i ((x.getD (entryOffset entries i + j) 0 - 1).toNat) = some true) ∧
  (∀ c, c < (entries.getD i default).numBooleans →
    (entryState x entries i c = some true ↔
      ∃ j, j < (entries.getD i default).exactly_number ∧
        x.getD (entryOffset entries i + j) 0 = ((c : Int) + 1))) ∧
  (∀ c, c < (entries.getD i default).numBooleans →
    (∀ j, j < (entries.getD i default).exactly_number →
      x.getD (entryOffset entries i + j) 0 ≠ ((c : Int) + 1)) →
    entryState x entries i c = some false)

instance (entries : List RefEntry) (x : List Int) (i : Nat) :
    Decidable (externalRefSpec entries x i) := by
  unfold externalRefSpec; infer_instance

/-- Statement of claim C4 about one `evaluate_neighbors` call: `improve` is
true exactly when some remaining neighbor solves `ok` with objective
strictly below `fmin - tol`; without improvement the returned tuple is the
untouched default; with improvement the returned data comes from the first
neighbor (in dict iteration order) whose `ok` objective equals the returned
running-best `fmin`, which improves the incoming `fmin` by more than `tol`. -/
def evaluateNeighborsSpec {Init : Type} (solver : Solver Init)
    (ext_vars : List (Nat × List Int)) (w : Init) (fmin tol : ℚ) : Prop :=
  ((evaluate_neighbors solver ext_vars w fmin tol).1.improve = true ↔
    ∃ p ∈ dict_pop0 ext_vars, (solver p.2 (some w)).status = SolverStatus.ok ∧
      (solver p.2 (some w)).obj < fmin - tol) ∧
  ((evaluate_neighbors solver ext_vars w fmin tol).1.improve = false →
    (evaluate_neighbors solver ext_vars w fmin tol).1 =
      ⟨fmin, (List.lookup 0 ext_vars).getD [], 0, w, false⟩) ∧
  ((evaluate_neighbors solver ext_vars w fmin tol).1.improve = true →
    (evaluate_neighbors solver ext_vars w fmin tol).1.fmin + tol < fmin ∧
    ∃ l1 p l2, dict_pop0 ext_vars = l1 ++ p :: l2 ∧
      (solver p.2 (some w)).status = SolverStatus.ok ∧
      (solver p.2 (some w)).obj = (evaluate_neighbors solver ext_vars w fmin tol).1.fmin ∧
      (evaluate_neighbors solver ext_vars w fmin tol).1.best_var = p.2 ∧
      (evaluate_neighbors solver ext_vars w fmin tol).1.best_dir = p.1 ∧
      (evaluate_neighbors solver ext_vars w fmin tol).1.best_init = (solver p.2 (some w)).init ∧
      ∀ q ∈ l1, ¬ ((solver q.2 (some w)).status = SolverStatus.ok ∧
        (solver q.2 (some w)).obj = (evaluate_neighbors solver ext_vars w fmin tol).1.fmin))

/-- Statement of claim C10 about one `evaluate_neighbors` call: the caller's
dict is left exactly with key `0` popped (all other keys and vectors
untouched), and the returned best candidate defaults to the incumbent
vector `v` that key `0` held before the pop. -/
def popFrameSpec {Init : Type} (solver : Solver Init)
    (ext_vars : List (Nat × List Int)) (w : Init) (fmin tol : ℚ) (v : List Int) : Prop :=
  (evaluate_neighbors solver ext_vars w fmin tol).2 = dict_pop0 ext_vars ∧
  List.lookup 0 (evaluate_neighbors solver ext_vars w fmin tol).2 = none ∧
  (∀ k, k ≠ 0 →
    List.lookup k (evaluate_neighbors solver ext_vars w fmin tol).2 = List.lookup k ext_vars) ∧
  ((evaluate_neighbors solver ext_vars w fmin tol).1.improve = false →
    (evaluate_neighbors solver ext_vars w fmin tol).1.best_var = v)

/-! Helper lemmas about association-list lookup. -/

theorem lookup_append {β : Type} (k : Nat) (l1 l2 : List (Nat × β)) :
    List.lookup k (l1 ++ l2) =
      match List.lookup k l1 with
      | some v => some v
      | none => List.lookup k l2 := by
  induction l1 with
  | nil => simp
  | cons a t ih =>
    obtain ⟨a1, a2⟩ := a
    by_cases h : k = a1
    · simp [List.lookup, h]
    · have hb : (k == a1) = false := beq_false_of_ne h
      simp [List.lookup, hb, ih]

theorem lookup_range_map_none {β : Type} (f : Nat → β) :
    ∀ (m k : Nat), m < k →
      List.lookup k ((List.range m).map (fun t => (t+1, f t))) = none := by
  intro m
  induction m with
  | zero => intro k _; simp
  | succ m ih =>
    intro k hk
    rw [List.range_succ, List.map_append, lookup_append]
    have hm : m < k := Nat.lt_of_le_of_lt (Nat.le_succ m) hk
    rw [ih k hm]
    have hb : (k == m + 1) = false := beq_false_of_ne (by omega)
    simp [List.lookup, hb]

theorem lookup_range_map {β : Type} (f : Nat → β) :
    ∀ (m k : Nat), 1 ≤ k → k ≤ m →
      List.lookup k ((List.range m).map (fun t => (t+1, f t))) = some (f (k-1)) := by
  intro m
  induction m with
  | zero => intro k h1 h2; omega
  | succ m ih =>
    intro k h1 h2
    rw [List.range_succ, List.map_append, lookup_append]
    by_cases hk : k ≤ m
    · rw [ih k h1 hk]
    · have hkm : k = m + 1 := by omega
      rw [lookup_range_map_none f m k (by omega)]
      have hb : (k == m + 1) = true := by simp [hkm]
      simp [List.lookup, hb, hkm]

/-! Helper lemmas about the `dict.pop(0, None)` model. -/

theorem dict_pop0_cons_zero (a2 : List Int) (t : List (Nat × List Int)) :
    dict_pop0 ((0, a2) :: t) = dict_pop0 t := by
  simp [dict_pop0, List.filter_cons]

theorem dict_pop0_cons_ne (a1 : Nat) (h : a1 ≠ 0) (a2 : List Int) (t : List (Nat × List Int)) :
    dict_pop0 ((a1, a2) :: t) = (a1, a2) :: dict_pop0 t := by
  simp [dict_pop0, List.filter_cons, h]

theorem lookup_dict_pop0_zero (l : List (Nat × List Int)) :
    List.lookup 0 (dict_pop0 l) = none := by
  induction l with
  | nil => rfl
  | cons a t ih =>
    obtain ⟨a1, a2⟩ := a
    by_cases h : a1 = 0
    · rw [h, dict_pop0_cons_zero]; exact ih
    · rw [dict_pop0_cons_ne a1 h]
      have hb : ((0 : Nat) == a1) = false := beq_false_of_ne (by omega)
      simp only [List.lookup, hb]
      exact ih

theorem lookup_dict_pop0_ne (l : List (Nat × List Int)) (k : Nat) (hk : k ≠ 0) :
    List.lookup k (dict_pop0 l) = List.lookup k l := by
  induction l with
  | nil => rfl
  | cons a t ih =>
    obtain ⟨a1, a2⟩ := a
    by_cases h : a1 = 0
    · subst h
      rw [dict_pop0_cons_zero]
      have hb : (k == (0 : Nat)) = false := beq_false_of_ne hk
      rw [ih]
      simp only [List.lookup, hb]
    · rw [dict_pop0_cons_ne a1 h]
      by_cases hka : k = a1
      · subst hka
        simp only [List.lookup, beq_self_eq_true]
      · have hb : (k == a1) = false := beq_false_of_ne hka
        simp only [List.lookup, hb]
        exact ih

/-! Helper lemmas about the EXPLORE scan loop `en_loop`. -/

theorem en_loop_improve_mono {Init : Type} (solver : Solver Init) (w : Init) (tol : ℚ) :
    ∀ (l : List (Nat × List Int)) (s : ENResult Init), s.improve = true →
      (en_loop solver w tol l s).improve = true := by
  intro l
  induction l with
  | nil => intro s hs; simpa [en_loop] using hs
  | cons a rest ih =>
    intro s hs
    obtain ⟨k, v⟩ := a
    by_cases hc : (solver v (some w)).status = SolverStatus.ok ∧
        (solver v (some w)).obj + tol < s.fmin
    · simp only [en_loop, if_pos hc]
      exact ih _ rfl
    · simp only [en_loop, if_neg hc]
      exact ih s hs

theorem en_loop_noimprove_frame {Init : Type} (solver : Solver Init) (w : Init) (tol : ℚ) :
    ∀ (l : List (Nat × List Int)) (s : ENResult Init),
      (en_loop solver w tol l s).improve = false → en_loop solver w tol l s = s := by
  intro l
  induction l with
  | nil => intro s _; rfl
  | cons a rest ih =>
    intro s h
    obtain ⟨k, v⟩ := a
    by_cases hc : (solver v (some w)).status = SolverStatus.ok ∧
        (solver v (some w)).obj + tol < s.fmin
    · exfalso
      simp only [en_loop, if_pos hc] at h
      have hmono := en_loop_improve_mono solver w tol rest
        ⟨(solver v (some w)).obj, v, k, (solver v (some w)).init, true⟩ rfl
      rw [h] at hmono
      exact Bool.false_ne_true hmono
    · simp only [en_loop, if_neg hc] at h ⊢
      exact ih s h

theorem en_loop_fmin_le {Init : Type} (solver : Solver Init) (w : Init) (tol : ℚ)
    (htol : 0 < tol) :
    ∀ (l : List (Nat × List Int)) (s : ENResult Init),
      (en_loop solver w tol l s).fmin ≤ s.fmin := by
  intro l
  induction l with
  | nil => intro s; simp [en_loop]
  | cons a rest ih =>
    intro s
    obtain ⟨k, v⟩ := a
    by_cases hc : (solver v (some w)).status = SolverStatus.ok ∧
        (solver v (some w)).obj + tol < s.fmin
    · simp only [en_loop, if_pos hc]
      have h1 := ih ⟨(solver v (some w)).obj, v, k, (solver v (some w)).init, true⟩
      have h2 := hc.2
      calc (en_loop solver w tol rest
              ⟨(solver v (some w)).obj, v, k, (solver v (some w)).init, true⟩).fmin
          ≤ (solver v (some w)).obj := h1
        _ ≤ s.fmin := by linarith
    · simp only [en_loop, if_neg hc]
      exact ih s

theorem en_loop_improve_iff {Init : Type} (solver : Solver Init) (w : Init) (tol : ℚ) :
    ∀ (l : List (Nat × List Int)) (s : ENResult Init), s.improve = false →
      ((en_loop solver w tol l s).improve = true ↔
        ∃ p ∈ l, (solver p.2 (some w)).status = SolverStatus.ok ∧
          (solver p.2 (some w)).obj + tol < s.fmin) := by
  intro l
  induction l with
  | nil => intro s hs; simp [en_loop, hs]
  | cons a rest ih =>
    intro s hs
    obtain ⟨k, v⟩ := a
    by_cases hc : (solver v (some w)).status = SolverStatus.ok ∧
        (solver v (some w)).obj + tol < s.fmin
    · simp only [en_loop, if_pos hc]
      constructor
      · intro _
        exact ⟨(k, v), List.mem_cons_self (k, v) rest, hc⟩
      · intro _
        exact en_loop_improve_mono solver w tol rest _ rfl
    · simp only [en_loop, if_neg hc]
      rw [ih s hs]
      constructor
      · rintro ⟨p, hp, h1, h2⟩
        exact ⟨p, List.mem_cons_of_mem _ hp, h1, h2⟩
      · rintro ⟨p, hp, h1, h2⟩
        rcases List.mem_cons.mp hp with heq | hp2
        · exact absurd ⟨by rw [heq] at h1; exact h1, by rw [heq] at h2; exact h2⟩ hc
        · exact ⟨p, hp2, h1, h2⟩

/-- Characterization of the scan when the running state has already
recorded an improvement: the final state either keeps the recorded best
untouched or replaces it by a strictly better one coming from the first
entry of the remaining list that attains the final running best. -/
theorem en_loop_true_spec {Init : Type} (solver : Solver Init) (w : Init) (tol : ℚ)
    (htol : 0 < tol) :
    ∀ (l : List (Nat × List Int)) (s : ENResult Init), s.improve = true →
      (en_loop solver w tol l s).improve = true ∧
      (en_loop solver w tol l s).fmin ≤ s.fmin ∧
      (((en_loop solver w tol l s).fmin = s.fmin ∧
        (en_loop solver w tol l s).best_var = s.best_var ∧
        (en_loop solver w tol l s).best_dir = s.best_dir ∧
        (en_loop solver w tol l s).best_init = s.best_init) ∨
       ((en_loop solver w tol l s).fmin + tol < s.fmin ∧
        ∃ l1 p l2, l = l1 ++ p :: l2 ∧
          (solver p.2 (some w)).status = SolverStatus.ok ∧
          (solver p.2 (some w)).obj = (en_loop solver w tol l s).fmin ∧
          (en_loop solver w tol l s).best_var = p.2 ∧
          (en_loop solver w tol l s).best_dir = p.1 ∧
          (en_loop solver w tol l s).best_init = (solver p.2 (some w)).init ∧
          ∀ q ∈ l1, ¬ ((solver q.2 (some w)).status = SolverStatus.ok ∧
            (solver q.2 (some w)).obj = (en_loop solver w tol l s).fmin))) := by
  intro l
  induction l with
  | nil =>
    intro s hs
    exact ⟨hs, le_refl _, Or.inl ⟨rfl, rfl, rfl, rfl⟩⟩
  | cons a rest ih =>
    intro s hs
    obtain ⟨k, v⟩ := a
    by_cases hc : (solver v (some w)).status = SolverStatus.ok ∧
        (solver v (some w)).obj + tol < s.fmin
    · simp only [en_loop, if_pos hc]
      obtain ⟨himp, hle, hcases⟩ := ih
        ⟨(solver v (some w)).obj, v, k, (solver v (some w)).init, true⟩ rfl
      refine ⟨himp, by have := hc.2; linarith, ?_⟩
      rcases hcases with ⟨hf, hbv, hbd, hbi⟩ | ⟨hf, l1, p, l2, hdec, hok, hobj, hbv, hbd, hbi, hfirst⟩
      · refine Or.inr ⟨by rw [hf]; exact hc.2, [], (k, v), rest, rfl, hc.1, hf.symm, hbv, hbd, hbi, ?_⟩
        intro q hq
        exact absurd hq (List.not_mem_nil q)
      · refine Or.inr ⟨by have := hc.2; linarith, (k, v) :: l1, p, l2, by rw [hdec]; exact (List.cons_append _ _ _).symm, hok, hobj,
          hbv, hbd, hbi, ?_⟩
        intro q hq
        rcases List.mem_cons.mp hq with heq | hq2
        · rw [heq]
          rintro ⟨_, habs⟩
          have hf2 : (en_loop solver w tol rest
              ⟨(solver v (some w)).obj, v, k, (solver v (some w)).init, true⟩).fmin + tol
              < (solver v (some w)).obj := hf
          have habs2 : (solver v (some w)).obj = (en_loop solver w tol rest
              ⟨(solver v (some w)).obj, v, k, (solver v (some w)).init, true⟩).fmin := habs
          linarith
        · exact hfirst q hq2
    · simp only [en_loop, if_neg hc]
      obtain ⟨himp, hle, hcases⟩ := ih s hs
      refine ⟨himp, hle, ?_⟩
      rcases hcases with ⟨hf, hbv, hbd, hbi⟩ | ⟨hf, l1, p, l2, hdec, hok, hobj, hbv, hbd, hbi, hfirst⟩
      · exact Or.inl ⟨hf, hbv, hbd, hbi⟩
      · refine Or.inr ⟨hf, (k, v) :: l1, p, l2, by rw [hdec]; exact (List.cons_append _ _ _).symm, hok, hobj, hbv, hbd, hbi, ?_⟩
        intro q hq
        rcases List.mem_cons.mp hq with heq | hq2
        · rw [heq]
          rintro ⟨hq1, hq2v⟩
          have hge : ¬ ((solver v (some w)).obj + tol < s.fmin) := fun hlt => hc ⟨hq1, hlt⟩
          push_neg at hge
          rw [hq2v] at hge
          linarith
        · exact hfirst q hq2

/-- Characterization of the scan from the initial (no-improvement-yet)
state: either nothing improved and the state is returned untouched, or the
returned data comes from the first entry attaining the final running best,
which improves the incoming `fmin` by more than `tol`. -/
theorem en_loop_false_spec {Init : Type} (solver : Solver Init) (w : Init) (tol : ℚ)
    (htol : 0 < tol) :
    ∀ (l : List (Nat × List Int)) (s : ENResult Init), s.improve = false →
      ((en_loop solver w tol l s).improve = true →
        (en_loop solver w tol l s).fmin + tol < s.fmin ∧
        ∃ l1 p l2, l = l1 ++ p :: l2 ∧
          (solver p.2 (some w)).status = SolverStatus.ok ∧
          (solver p.2 (some w)).obj = (en_loop solver w tol l s).fmin ∧
          (en_loop solver w tol l s).best_var = p.2 ∧
          (en_loop solver w tol l s).best_dir = p.1 ∧
          (en_loop solver w tol l s).best_init = (solver p.2 (some w)).init ∧
          ∀ q ∈ l1, ¬ ((solver q.2 (some w)).status = SolverStatus.ok ∧
            (solver q.2 (some w)).obj = (en_loop solver w tol l s).fmin)) := by
  intro l
  induction l with
  | nil =>
    intro s hs himp
    rw [en_loop] at himp
    rw [hs] at himp
    exact absurd himp (by simp)
  | cons a rest ih =>
    intro s hs himp
    obtain ⟨k, v⟩ := a
    by_cases hc : (solver v (some w)).status = SolverStatus.ok ∧
        (solver v (some w)).obj + tol < s.fmin
    · simp only [en_loop, if_pos hc] at himp ⊢
      obtain ⟨_, hle, hcases⟩ := en_loop_true_spec solver w tol htol rest
        ⟨(solver v (some w)).obj, v, k, (solver v (some w)).init, true⟩ rfl
      rcases hcases with ⟨hf, hbv, hbd, hbi⟩ | ⟨hf, l1, p, l2, hdec, hok, hobj, hbv, hbd, hbi, hfirst⟩
      · refine ⟨by rw [hf]; exact hc.2, [], (k, v), rest, rfl, hc.1, hf.symm, hbv, hbd, hbi, ?_⟩
        intro q hq
        exact absurd hq (List.not_mem_nil q)
      · refine ⟨by have := hc.2; linarith, (k, v) :: l1, p, l2, by rw [hdec]; exact (List.cons_append _ _ _).symm, hok, hobj,
          hbv, hbd, hbi, ?_⟩
        intro q hq
        rcases List.mem_cons.mp hq with heq | hq2
        · rw [heq]
          rintro ⟨_, habs⟩
          have hf2 : (en_loop solver w tol rest
              ⟨(solver v (some w)).obj, v, k, (solver v (some w)).init, true⟩).fmin + tol
              < (solver v (some w)).obj := hf
          have habs2 : (solver v (some w)).obj = (en_loop solver w tol rest
              ⟨(solver v (some w)).obj, v, k, (solver v (some w)).init, true⟩).fmin := habs
          linarith
        · exact hfirst q hq2
    · simp only [en_loop, if_neg hc] at himp ⊢
      obtain ⟨hf, l1, p, l2, hdec, hok, hobj, hbv, hbd, hbi, hfirst⟩ := ih s hs himp
      refine ⟨hf, (k, v) :: l1, p, l2, by rw [hdec]; exact (List.cons_append _ _ _).symm, hok, hobj, hbv, hbd, hbi, ?_⟩
      intro q hq
      rcases List.mem_cons.mp hq with heq | hq2
      · rw [heq]
        rintro ⟨hq1, hq2v⟩
        have hge : ¬ ((solver v (some w)).obj + tol < s.fmin) := fun hlt => hc ⟨hq1, hlt⟩
        push_neg at hge
        rw [hq2v] at hge
        linarith
      · exact hfirst q hq2

/-- C4: for every `evaluate_neighbors` call, `improve = True` exactly when
some evaluated neighbor with solver status `ok` has objective strictly
below `fmin - tol`; the returned data is the running best of the scan
(each update needs `act_obj + tol` strictly below the current best), so
among neighbors attaining the final best objective the first in iteration
order wins; without improvement the incoming data is returned untouched. -/
theorem claim_C4_evaluate_neighbors_running_best {Init : Type} (solver : Solver Init)
    (ext_vars : List (Nat × List Int)) (w : Init) (fmin tol : ℚ) (htol : 0 < tol) :
    evaluateNeighborsSpec solver ext_vars w fmin tol := by
  have hEV : (evaluate_neighbors solver ext_vars w fmin tol).1 =
      en_loop solver w tol (dict_pop0 ext_vars)
        ⟨fmin, (List.lookup 0 ext_vars).getD [], 0, w, false⟩ := rfl
  unfold evaluateNeighborsSpec
  rw [hEV]
  refine ⟨?_, ?_, ?_⟩
  · rw [en_loop_improve_iff solver w tol (dict_pop0 ext_vars) _ rfl]
    constructor
    · rintro ⟨p, hp, h1, h2⟩
      have h2b : (solver p.2 (some w)).obj + tol < fmin := h2
      exact ⟨p, hp, h1, by linarith⟩
    · rintro ⟨p, hp, h1, h2⟩
      have h2b : (solver p.2 (some w)).obj + tol < fmin := by linarith
      exact ⟨p, hp, h1, h2b⟩
  · intro h
    exact en_loop_noimprove_frame solver w tol _ _ h
  · intro h
    exact en_loop_false_spec solver w tol htol _ _ rfl h

/-- C4 witness at a concrete scan (`tol = 1 > 0`, all-error oracle). -/
theorem claim_C4_evaluate_neighbors_running_best_witness :
    (0 : ℚ) < 1 ∧ evaluateNeighborsSpec errorSolver [(0, [3,2]), (1, [4,2])] () 0 1 :=
  ⟨by decide,
    claim_C4_evaluate_neighbors_running_best errorSolver [(0, [3,2]), (1, [4,2])] () 0 1
      (by decide)⟩

/-- C8: a neighbor or line-search step whose subproblem solve reports a
status other than `ok` is never selected: the scan state (running `fmin`,
best candidate, best warm start) passes over it unchanged and the scan
continues with the remaining neighbors, and `move_and_evaluate` (in either
`optimize` mode) returns the incoming point, `fmin` and warm start with
`moved = False`. -/
theorem claim_C8_non_ok_never_selected {Init : Type} (solver : Solver Init) (w : Init)
    (tol : ℚ) (k : Nat) (u : List Int) (rest : List (Nat × List Int)) (s : ENResult Init)
    (start dir : List Int) (fm : ℚ) (lo hi : Nat → Int) (opt : Bool)
    (h1 : (solver u (some w)).status ≠ SolverStatus.ok)
    (h2 : (solver (zipAdd start dir) (some w)).status ≠ SolverStatus.ok) :
    en_loop solver w tol ((k, u) :: rest) s = en_loop solver w tol rest s ∧
    move_and_evaluate solver start w fm dir opt lo hi tol = ⟨fm, start, false, w⟩ := by
  constructor
  · simp only [en_loop]
    rw [if_neg (fun hc => h1 hc.1)]
  · simp only [move_and_evaluate]
    split
    · split
      · rw [if_neg (fun hc => h2 hc.1)]
      · rfl
    · rw [if_neg (fun hc => h2 hc.1)]

/-- C8 witness at a concrete non-`ok` solve. -/
theorem claim_C8_non_ok_never_selected_witness :
    ((errorSolver [2,2] (some ())).status ≠ SolverStatus.ok ∧
     (errorSolver (zipAdd [3,2] [1,0]) (some ())).status ≠ SolverStatus.ok) ∧
    (en_loop errorSolver () 1 ((1, [2,2]) :: []) ⟨0, [3,2], 0, (), false⟩ =
       en_loop errorSolver () 1 [] ⟨0, [3,2], 0, (), false⟩ ∧
     move_and_evaluate errorSolver [3,2] () 0 [1,0] true dsdaLo dsdaHi 1 =
       ⟨0, [3,2], false, ()⟩) :=
  ⟨⟨by decide, by decide⟩,
    claim_C8_non_ok_never_selected errorSolver () 1 1 [2,2] [] ⟨0, [3,2], 0, (), false⟩
      [3,2] [1,0] 0 dsdaLo dsdaHi true (by decide) (by decide)⟩

/-- C10: `evaluate_neighbors` pops key `0` from the caller's aliased
mapping (the post-call dict is exactly the original minus key `0`; every
other key still maps to its original vector), and the returned best
candidate defaults to the incumbent vector read from key `0` before the
removal. -/
theorem claim_C10_evaluate_neighbors_pop_in_place {Init : Type} (solver : Solver Init)
    (ext_vars : List (Nat × List Int)) (w : Init) (fmin tol : ℚ) (v : List Int)
    (h : List.lookup 0 ext_vars = some v) :
    popFrameSpec solver ext_vars w fmin tol v := by
  unfold popFrameSpec
  refine ⟨rfl, ?_, ?_, ?_⟩
  · exact lookup_dict_pop0_zero ext_vars
  · intro k hk
    exact lookup_dict_pop0_ne ext_vars k hk
  · intro himp
    have hframe : (evaluate_neighbors solver ext_vars w fmin tol).1 =
        ⟨fmin, (List.lookup 0 ext_vars).getD [], 0, w, false⟩ :=
      en_loop_noimprove_frame solver w tol (dict_pop0 ext_vars)
        ⟨fmin, (List.lookup 0 ext_vars).getD [], 0, w, false⟩ himp
    rw [hframe, h]
    rfl

/-- C10 witness at a concrete mapping holding key `0`. -/
theorem claim_C10_evaluate_neighbors_pop_in_place_witness :
    List.lookup 0 [(0, [3,2]), (1, [4,2])] = some [3,2] ∧
    popFrameSpec errorSolver [(0, [3,2]), (1, [4,2])] () 0 1 [3,2] :=
  ⟨by decide,
    claim_C10_evaluate_neighbors_pop_in_place errorSolver [(0, [3,2]), (1, [4,2])] () 0 1
      [3,2] (by decide)⟩

/-! Helper lemmas about `move_and_evaluate` (in the `optimize=True` mode
used by `dsda`) and the line-search loop. -/

theorem me_cases {Init : Type} (solver : Solver Init) (start : List Int) (w : Init)
    (fm : ℚ) (dir : List Int) (lo hi : Nat → Int) (tol : ℚ) :
    ((move_and_evaluate solver start w fm dir true lo hi tol).moved = true ∧
     move_and_evaluate solver start w fm dir true lo hi tol =
       ⟨(solver (zipAdd start dir) (some w)).obj, zipAdd start dir, true,
        (solver (zipAdd start dir) (some w)).init⟩ ∧
     inBoundsUpTo (zipAdd start dir) (zipAdd start dir).length lo hi = true ∧
     (solver (zipAdd start dir) (some w)).status = SolverStatus.ok ∧
     (solver (zipAdd start dir) (some w)).obj + tol < fm) ∨
    ((move_and_evaluate solver start w fm dir true lo hi tol).moved = false ∧
     move_and_evaluate solver start w fm dir true lo hi tol = ⟨fm, start, false, w⟩ ∧
     ¬ (inBoundsUpTo (zipAdd start dir) (zipAdd start dir).length lo hi = true ∧
        (solver (zipAdd start dir) (some w)).status = SolverStatus.ok ∧
        (solver (zipAdd start dir) (some w)).obj + tol < fm)) := by
  have hred : move_and_evaluate solver start w fm dir true lo hi tol =
      (if inBoundsUpTo (zipAdd start dir) (zipAdd start dir).length lo hi then
        (if (solver (zipAdd start dir) (some w)).status = SolverStatus.ok ∧
            (solver (zipAdd start dir) (some w)).obj + tol < fm then
          ⟨(solver (zipAdd start dir) (some w)).obj, zipAdd start dir, true,
            (solver (zipAdd start dir) (some w)).init⟩
        else ⟨fm, start, false, w⟩)
      else ⟨fm, start, false, w⟩) := rfl
  by_cases hb : inBoundsUpTo (zipAdd start dir) (zipAdd start dir).length lo hi = true
  · by_cases hc : (solver (zipAdd start dir) (some w)).status = SolverStatus.ok ∧
        (solver (zipAdd start dir) (some w)).obj + tol < fm
    · left
      rw [hred, if_pos hb, if_pos hc]
      exact ⟨rfl, rfl, hb, hc.1, hc.2⟩
    · right
      rw [hred, if_pos hb, if_neg hc]
      exact ⟨rfl, rfl, fun h => hc ⟨h.2.1, h.2.2⟩⟩
  · right
    rw [hred, if_neg hb]
    exact ⟨rfl, rfl, fun h => hb h.1⟩

theorem addSteps_shift (x d : List Int) :
    ∀ j, addSteps x d (j+1) = addSteps (zipAdd x d) d j := by
  intro j
  induction j with
  | zero => rfl
  | succ j ih =>
    show zipAdd (addSteps x d (j+1)) d = zipAdd (addSteps (zipAdd x d) d j) d
    rw [ih]

theorem stepPoints_cons (x d : List Int) (k : Nat) :
    stepPoints x d (k+1) = zipAdd x d :: stepPoints (zipAdd x d) d k := by
  unfold stepPoints
  rw [List.range_succ_eq_map, List.map_cons, List.map_map]
  refine congrArg₂ _ rfl ?_
  refine List.map_congr_left ?_
  intro i _
  show addSteps x d (i + 1 + 1) = addSteps (zipAdd x d) d (i + 1)
  exact addSteps_shift x d (i + 1)

/-- Unrolling of the inner line-search loop: for some `k ≤ fuel`, the loop
accepts exactly the first `k` steps along `dir`, appends them to the route
(each annotated `fmin` improving the previous by more than the tolerance),
ends at the `k`-th point with the matching `fmin`, every accepted point
passed the box-bound check, and if the fuel was not exhausted the next
attempt from the final state is rejected. -/
theorem go2_loop_spec {Init : Type} (solver : Solver Init) (lo hi : Nat → Int)
    (dir : List Int) :
    ∀ (fuel : Nat) (s : LSState Init),
      ∃ k suffix, k ≤ fuel ∧
        (go2_loop solver lo hi dir fuel s).route = s.route ++ suffix ∧
        suffix.map Prod.fst = stepPoints s.best_var dir k ∧
        List.Chain' (fun a b => b + tolDefault < a) (s.fmin :: suffix.map Prod.snd) ∧
        (go2_loop solver lo hi dir fuel s).fmin = (suffix.map Prod.snd).getLastD s.fmin ∧
        (go2_loop solver lo hi dir fuel s).best_var = addSteps s.best_var dir k ∧
        (∀ u ∈ stepPoints s.best_var dir k, inBoundsUpTo u u.length lo hi = true) ∧
        (k < fuel →
          (move_and_evaluate solver (go2_loop solver lo hi dir fuel s).best_var
            (go2_loop solver lo hi dir fuel s).best_init
            (go2_loop solver lo hi dir fuel s).fmin dir true lo hi tolDefault).moved
            = false) := by
  intro fuel
  induction fuel with
  | zero =>
    intro s
    refine ⟨0, [], le_refl 0, (List.append_nil _).symm, rfl, List.chain'_singleton _,
      rfl, rfl, ?_, ?_⟩
    · intro u hu
      exact absurd hu (List.not_mem_nil u)
    · intro h
      omega
  | succ fuel ih =>
    intro s
    rcases me_cases solver s.best_var s.best_init s.fmin dir lo hi tolDefault with
      ⟨hm, heq, hb, hok, himp⟩ | ⟨hm, heq, hrej⟩
    · have hstep : go2_loop solver lo hi dir (fuel+1) s =
          go2_loop solver lo hi dir fuel
            ⟨(solver (zipAdd s.best_var dir) (some s.best_init)).obj,
             zipAdd s.best_var dir,
             (solver (zipAdd s.best_var dir) (some s.best_init)).init,
             s.route ++ [(zipAdd s.best_var dir,
               (solver (zipAdd s.best_var dir) (some s.best_init)).obj)],
             s.calls ++ move_calls s.best_var dir lo hi⟩ := by
        simp only [go2_loop]
        rw [if_pos hm, heq]
      obtain ⟨k1, suf1, hk1, hroute1, hfst1, hchain1, hfmin1, hbv1, hbnd1, hhalt1⟩ :=
        ih ⟨(solver (zipAdd s.best_var dir) (some s.best_init)).obj,
            zipAdd s.best_var dir,
            (solver (zipAdd s.best_var dir) (some s.best_init)).init,
            s.route ++ [(zipAdd s.best_var dir,
              (solver (zipAdd s.best_var dir) (some s.best_init)).obj)],
            s.calls ++ move_calls s.best_var dir lo hi⟩
      refine ⟨k1 + 1,
        (zipAdd s.best_var dir,
          (solver (zipAdd s.best_var dir) (some s.best_init)).obj) :: suf1,
        by omega, ?_, ?_, ?_, ?_, ?_, ?_, ?_⟩
      · rw [hstep, hroute1]
        simp [List.append_assoc]
      · rw [List.map_cons, hfst1, stepPoints_cons]
      · rw [List.map_cons]
        rw [List.chain'_cons]
        exact ⟨himp, hchain1⟩
      · rw [hstep, hfmin1, List.map_cons, List.getLastD_cons]
      · rw [hstep, hbv1]
        exact (addSteps_shift s.best_var dir k1).symm
      · intro u hu
        rw [stepPoints_cons] at hu
        rcases List.mem_cons.mp hu with heq2 | hu2
        · rw [heq2]; exact hb
        · exact hbnd1 u hu2
      · intro hlt
        rw [hstep]
        exact hhalt1 (by omega)
    · refine ⟨0, [], Nat.zero_le _, ?_, rfl, List.chain'_singleton _, ?_, ?_, ?_, ?_⟩
      · show (go2_loop solver lo hi dir (fuel+1) s).route = s.route ++ []
        simp only [go2_loop]
        rw [if_neg (by rw [hm]; exact Bool.false_ne_true), heq, List.append_nil]
      · show (go2_loop solver lo hi dir (fuel+1) s).fmin = ([] : List ℚ).getLastD s.fmin
        simp only [go2_loop]
        rw [if_neg (by rw [hm]; exact Bool.false_ne_true), heq]
        rfl
      · show (go2_loop solver lo hi dir (fuel+1) s).best_var = addSteps s.best_var dir 0
        simp only [go2_loop]
        rw [if_neg (by rw [hm]; exact Bool.false_ne_true), heq]
        rfl
      · intro u hu
        exact absurd hu (List.not_mem_nil u)
      · intro _
        have hres : go2_loop solver lo hi dir (fuel+1) s =
            ⟨s.fmin, s.best_var, s.best_init, s.route,
             s.calls ++ move_calls s.best_var dir lo hi⟩ := by
          simp only [go2_loop]
          rw [if_neg (by rw [hm]; exact Bool.false_ne_true), heq]
        rw [hres]
        exact hm

/-- C5: in LINE-SEARCH the driver repeats the same winning direction from
the current point; a step is accepted exactly when the moved point passes
the box-bound check, its solve reports `ok`, and the objective improves
`fmin` by more than the tolerance (and then the moved point with its new
`fmin` and warm start becomes current); a rejected step leaves the state
at the last accepted point; the inner loop accepts a prefix of steps,
appends each to the route, and halts at the first failing step, leaving
the last accepted point for the driver to resume EXPLORE from. -/
theorem claim_C5_line_search_same_direction {Init : Type} (solver : Solver Init)
    (lo hi : Nat → Int) (dir start : List Int) (w : Init) (fm tol : ℚ)
    (fuel : Nat) (s : LSState Init) :
    ((move_and_evaluate solver start w fm dir true lo hi tol).moved = true ↔
      (inBoundsUpTo (zipAdd start dir) (zipAdd start dir).length lo hi = true ∧
       (solver (zipAdd start dir) (some w)).status = SolverStatus.ok ∧
       (solver (zipAdd start dir) (some w)).obj + tol < fm)) ∧
    ((move_and_evaluate solver start w fm dir true lo hi tol).moved = true →
      move_and_evaluate solver start w fm dir true lo hi tol =
        ⟨(solver (zipAdd start dir) (some w)).obj, zipAdd start dir, true,
         (solver (zipAdd start dir) (some w)).init⟩) ∧
    ((move_and_evaluate solver start w fm dir true lo hi tol).moved = false →
      move_and_evaluate solver start w fm dir true lo hi tol = ⟨fm, start, false, w⟩) ∧
    (∃ k suffix, k ≤ fuel ∧
      (go2_loop solver lo hi dir fuel s).route = s.route ++ suffix ∧
      suffix.map Prod.fst = stepPoints s.best_var dir k ∧
      List.Chain' (fun a b => b + tolDefault < a) (s.fmin :: suffix.map Prod.snd) ∧
      (go2_loop solver lo hi dir fuel s).fmin = (suffix.map Prod.snd).getLastD s.fmin ∧
      (go2_loop solver lo hi dir fuel s).best_var = addSteps s.best_var dir k ∧
      (∀ u ∈ stepPoints s.best_var dir k, inBoundsUpTo u u.length lo hi = true) ∧
      (k < fuel →
        (move_and_evaluate solver (go2_loop solver lo hi dir fuel s).best_var
          (go2_loop solver lo hi dir fuel s).best_init
          (go2_loop solver lo hi dir fuel s).fmin dir true lo hi tolDefault).moved
          = false)) := by
  refine ⟨?_, ?_, ?_, go2_loop_spec solver lo hi dir fuel s⟩
  · rcases me_cases solver start w fm dir lo hi tol with ⟨hm, _, hb, hok, himp⟩ | ⟨hm, _, hrej⟩
    · exact ⟨fun _ => ⟨hb, hok, himp⟩, fun _ => hm⟩
    · constructor
      · intro h
        rw [hm] at h
        exact absurd h Bool.false_ne_true
      · intro h
        exact absurd h hrej
  · intro h
    rcases me_cases solver start w fm dir lo hi tol with ⟨_, heq, _, _, _⟩ | ⟨hm, _, _⟩
    · exact heq
    · rw [hm] at h
      exact absurd h Bool.false_ne_true
  · intro h
    rcases me_cases solver start w fm dir lo hi tol with ⟨hm, _, _, _, _⟩ | ⟨_, heq, _⟩
    · rw [hm] at h
      exact absurd h (by simp)
    · exact heq

/-! Route invariant: the route always ends at the current incumbent and
its annotated `fmin` values strictly decrease (by more than the default
tolerance) along the route. -/

theorem tolDefault_pos : (0 : ℚ) < tolDefault := by
  norm_num [tolDefault]

theorem go2_loop_route_inv {Init : Type} (solver : Solver Init) (lo hi : Nat → Int)
    (dir : List Int) :
    ∀ (fuel : Nat) (s : LSState Init),
      (∃ p, s.route.getLast? = some p ∧ p.2 = s.fmin) →
      List.Chain' (fun a b => b.2 + tolDefault < a.2) s.route →
      ((∃ p, (go2_loop solver lo hi dir fuel s).route.getLast? = some p ∧
          p.2 = (go2_loop solver lo hi dir fuel s).fmin) ∧
       List.Chain' (fun a b => b.2 + tolDefault < a.2)
         (go2_loop solver lo hi dir fuel s).route) := by
  intro fuel
  induction fuel with
  | zero => intro s h1 h2; exact ⟨h1, h2⟩
  | succ fuel ih =>
    intro s h1 h2
    rcases me_cases solver s.best_var s.best_init s.fmin dir lo hi tolDefault with
      ⟨hm, heq, hb, hok, himp⟩ | ⟨hm, heq, _⟩
    · simp only [go2_loop]
      rw [if_pos hm, heq]
      apply ih
      · refine ⟨(zipAdd s.best_var dir,
          (solver (zipAdd s.best_var dir) (some s.best_init)).obj), ?_, rfl⟩
        exact List.getLast?_concat _
      · refine List.chain'_append.mpr ⟨h2, List.chain'_singleton _, ?_⟩
        intro x hx y hy
        obtain ⟨p, hp, hp2⟩ := h1
        rw [hp, Option.mem_def] at hx
        simp only [List.head?_cons, Option.mem_def] at hy
        have hxp : p = x := Option.some.inj hx
        have hyp : (zipAdd s.best_var dir,
            (solver (zipAdd s.best_var dir) (some s.best_init)).obj) = y :=
          Option.some.inj hy
        rw [← hxp, ← hyp]
        show (solver (zipAdd s.best_var dir) (some s.best_init)).obj + tolDefault < p.2
        rw [hp2]
        exact himp
    · simp only [go2_loop]
      rw [if_neg (by rw [hm]; exact Bool.false_ne_true), heq]
      exact ⟨h1, h2⟩

theorem go1_loop_route_inv {Init : Type} (solver : Solver Init)
    (neighborhood : List (Nat × List Int)) (lo hi : Nat → Int) (fuel2 : Nat) :
    ∀ (fuel1 : Nat) (s : DsdaState Init),
      (∃ p, s.route.getLast? = some p ∧ p.2 = s.fmin) →
      List.Chain' (fun a b => b.2 + tolDefault < a.2) s.route →
      ((∃ p, (go1_loop solver neighborhood lo hi fuel2 fuel1 s).route.getLast? = some p ∧
          p.2 = (go1_loop solver neighborhood lo hi fuel2 fuel1 s).fmin) ∧
       List.Chain' (fun a b => b.2 + tolDefault < a.2)
         (go1_loop solver neighborhood lo hi fuel2 fuel1 s).route) := by
  intro fuel1
  induction fuel1 with
  | zero => intro s h1 h2; exact ⟨h1, h2⟩
  | succ fuel ih =>
    intro s h1 h2
    by_cases himp : (evaluate_neighbors solver
        (my_neighbors s.ext_var neighborhood true lo hi true)
        s.init s.fmin tolDefault).1.improve = true
    · have hlt : (evaluate_neighbors solver
          (my_neighbors s.ext_var neighborhood true lo hi true)
          s.init s.fmin tolDefault).1.fmin + tolDefault < s.fmin :=
        (en_loop_false_spec solver s.init tolDefault tolDefault_pos
          (dict_pop0 (my_neighbors s.ext_var neighborhood true lo hi true))
          ⟨s.fmin,
           (List.lookup 0 (my_neighbors s.ext_var neighborhood true lo hi true)).getD [],
           0, s.init, false⟩ rfl himp).1
      simp only [go1_loop]
      rw [if_pos himp]
      have hgo2 := go2_loop_route_inv solver lo hi
        ((List.lookup (evaluate_neighbors solver
            (my_neighbors s.ext_var neighborhood true lo hi true)
            s.init s.fmin tolDefault).1.best_dir neighborhood).getD [])
        fuel2
        ⟨(evaluate_neighbors solver (my_neighbors s.ext_var neighborhood true lo hi true)
            s.init s.fmin tolDefault).1.fmin,
         (evaluate_neighbors solver (my_neighbors s.ext_var neighborhood true lo hi true)
            s.init s.fmin tolDefault).1.best_var,
         (evaluate_neighbors solver (my_neighbors s.ext_var neighborhood true lo hi true)
            s.init s.fmin tolDefault).1.best_init,
         s.route ++
           [((evaluate_neighbors solver (my_neighbors s.ext_var neighborhood true lo hi true)
               s.init s.fmin tolDefault).1.best_var,
             (evaluate_neighbors solver (my_neighbors s.ext_var neighborhood true lo hi true)
               s.init s.fmin tolDefault).1.fmin)],
         s.calls ++ (dict_pop0 (my_neighbors s.ext_var neighborhood true lo hi true)).map
           (fun p => p.2)⟩
        ⟨((evaluate_neighbors solver (my_neighbors s.ext_var neighborhood true lo hi true)
            s.init s.fmin tolDefault).1.best_var,
          (evaluate_neighbors solver (my_neighbors s.ext_var neighborhood true lo hi true)
            s.init s.fmin tolDefault).1.fmin), List.getLast?_concat _, rfl⟩
        (by
          refine List.chain'_append.mpr ⟨h2, List.chain'_singleton _, ?_⟩
          intro x hx y hy
          obtain ⟨p, hp, hp2⟩ := h1
          rw [hp, Option.mem_def] at hx
          simp only [List.head?_cons, Option.mem_def] at hy
          have hxp : p = x := Option.some.inj hx
          have hyp : ((evaluate_neighbors solver
              (my_neighbors s.ext_var neighborhood true lo hi true)
              s.init s.fmin tolDefault).1.best_var,
            (evaluate_neighbors solver (my_neighbors s.ext_var neighborhood true lo hi true)
              s.init s.fmin tolDefault).1.fmin) = y := Option.some.inj hy
          rw [← hxp, ← hyp]
          show (evaluate_neighbors solver
              (my_neighbors s.ext_var neighborhood true lo hi true)
              s.init s.fmin tolDefault).1.fmin + tolDefault < p.2
          rw [hp2]
          exact hlt)
      exact ih _ hgo2.1 hgo2.2
    · have himp2 : (evaluate_neighbors solver
          (my_neighbors s.ext_var neighborhood true lo hi true)
          s.init s.fmin tolDefault).1.improve = false := by
        rcases Bool.eq_false_or_eq_true ((evaluate_neighbors solver
          (my_neighbors s.ext_var neighborhood true lo hi true)
          s.init s.fmin tolDefault).1.improve) with ht | hf
        · exact absurd ht himp
        · exact hf
      have hfr : (evaluate_neighbors solver
          (my_neighbors s.ext_var neighborhood true lo hi true)
          s.init s.fmin tolDefault).1 =
          ⟨s.fmin,
           (List.lookup 0 (my_neighbors s.ext_var neighborhood true lo hi true)).getD [],
           0, s.init, false⟩ :=
        en_loop_noimprove_frame solver s.init tolDefault
          (dict_pop0 (my_neighbors s.ext_var neighborhood true lo hi true))
          ⟨s.fmin,
           (List.lookup 0 (my_neighbors s.ext_var neighborhood true lo hi true)).getD [],
           0, s.init, false⟩ himp2
      simp only [go1_loop]
      rw [if_neg himp]
      constructor
      · obtain ⟨p, hp, hp2⟩ := h1
        refine ⟨p, hp, ?_⟩
        show p.2 = (evaluate_neighbors solver
          (my_neighbors s.ext_var neighborhood true lo hi true)
          s.init s.fmin tolDefault).1.fmin
        rw [hfr]
        exact hp2
      · exact h2

/-- C6: across a full `dsda` run, the incumbent values `fmin` recorded with
the successive route entries strictly decrease by more than the tolerance
at every accepted move (EXPLORE or LINE-SEARCH), and in particular the
recorded `fmin` sequence is non-increasing; no step of the driver ever
increases `fmin`. -/
theorem claim_C6_route_fmin_monotone {Init : Type} (solver : Solver Init)
    (v1 v2 : Int) (fuel1 fuel2 : Nat) :
    List.Chain' (fun a b => b.2 + tolDefault < a.2) (dsda solver v1 v2 fuel1 fuel2).route ∧
    List.Chain' (fun a b => b.2 ≤ a.2) (dsda solver v1 v2 fuel1 fuel2).route := by
  have h := go1_loop_route_inv solver (neighborhood_k_eq_2 (external_init v1 v2).length)
    dsdaLo dsdaHi fuel2 fuel1
    ⟨external_init v1 v2, (solver (external_init v1 v2) none).init,
     (solver (external_init v1 v2) none).obj,
     [(external_init v1 v2, (solver (external_init v1 v2) none).obj)], []⟩
    ⟨(external_init v1 v2, (solver (external_init v1 v2) none).obj), rfl, rfl⟩
    (List.chain'_singleton _)
  constructor
  · exact h.2
  · refine List.Chain'.imp ?_ h.2
    intro a b hr
    have := tolDefault_pos
    linarith

/-! Bound-safety of every vector handed to the subproblem solver by the
EXPLORE and LINE-SEARCH phases. -/

theorem inBoundsUpTo_spec (v : List Int) (n : Nat) (lo hi : Nat → Int)
    (h : inBoundsUpTo v n lo hi = true) :
    ∀ j, j < n → lo (j+1) ≤ v.getD j 0 ∧ v.getD j 0 ≤ hi (j+1) := by
  intro j hj
  unfold inBoundsUpTo at h
  rw [List.all_eq_true] at h
  exact of_decide_eq_true (h j (List.mem_range.mpr hj))

theorem my_neighbors_mem_bounds (start : List Int) (neighborhood : List (Nat × List Int))
    (lo hi : Nat → Int) (cheating : Bool) (p : Nat × List Int)
    (hp : p ∈ my_neighbors start neighborhood true lo hi cheating) :
    inBoundsUpTo p.2 start.length lo hi = true ∧ p.2.length ≤ start.length := by
  have hp2 : p ∈ (if cheating then
      (((0, start) :: neighborhood.map (fun q => (q.1, zipAdd start q.2))).filter
        (fun q => inBoundsUpTo q.2 start.length lo hi)).filter (fun q => cheatKeep q.2)
    else
      ((0, start) :: neighborhood.map (fun q => (q.1, zipAdd start q.2))).filter
        (fun q => inBoundsUpTo q.2 start.length lo hi)) := hp
  have hpb : p ∈ ((0, start) :: neighborhood.map (fun q => (q.1, zipAdd start q.2))).filter
      (fun q => inBoundsUpTo q.2 start.length lo hi) := by
    cases cheating
    · exact hp2
    · exact List.mem_of_mem_filter hp2
  constructor
  · have hfilt := List.of_mem_filter hpb
    simpa using hfilt
  · have hmem : p ∈ (0, start) :: neighborhood.map (fun q => (q.1, zipAdd start q.2)) :=
      List.mem_of_mem_filter hpb
    rcases List.mem_cons.mp hmem with heq | hmap
    · rw [heq]
    · obtain ⟨q, _, hqe⟩ := List.mem_map.mp hmap
      rw [← hqe]
      show (zipAdd start q.2).length ≤ start.length
      unfold zipAdd
      rw [List.length_map, List.length_zip]
      exact inf_le_left

theorem go2_loop_calls_inv {Init : Type} (solver : Solver Init) (lo hi : Nat → Int)
    (dir : List Int) :
    ∀ (fuel : Nat) (s : LSState Init),
      (∀ x ∈ s.calls, ∀ j, j < x.length →
        lo (j+1) ≤ x.getD j 0 ∧ x.getD j 0 ≤ hi (j+1)) →
      ∀ x ∈ (go2_loop solver lo hi dir fuel s).calls, ∀ j, j < x.length →
        lo (j+1) ≤ x.getD j 0 ∧ x.getD j 0 ≤ hi (j+1) := by
  intro fuel
  induction fuel with
  | zero => intro s h; exact h
  | succ fuel ih =>
    intro s h
    have hc : ∀ x ∈ s.calls ++ move_calls s.best_var dir lo hi, ∀ j, j < x.length →
        lo (j+1) ≤ x.getD j 0 ∧ x.getD j 0 ≤ hi (j+1) := by
      intro x hx
      rcases List.mem_append.mp hx with hx1 | hx2
      · exact h x hx1
      · simp only [move_calls] at hx2
        by_cases hb : inBoundsUpTo (zipAdd s.best_var dir) (zipAdd s.best_var dir).length
            lo hi = true
        · rw [if_pos hb] at hx2
          have hxe := List.mem_singleton.mp hx2
          subst hxe
          intro j hj
          exact inBoundsUpTo_spec _ _ lo hi hb j hj
        · rw [if_neg hb] at hx2
          exact absurd hx2 (List.not_mem_nil x)
    rcases me_cases solver s.best_var s.best_init s.fmin dir lo hi tolDefault with
      ⟨hm, heq, _, _, _⟩ | ⟨hm, heq, _⟩
    · simp only [go2_loop]
      rw [if_pos hm, heq]
      exact ih _ hc
    · simp only [go2_loop]
      rw [if_neg (by rw [hm]; exact Bool.false_ne_true), heq]
      exact hc

theorem go1_loop_calls_inv {Init : Type} (solver : Solver Init)
    (neighborhood : List (Nat × List Int)) (lo hi : Nat → Int) (fuel2 : Nat) :
    ∀ (fuel1 : Nat) (s : DsdaState Init),
      (∀ x ∈ s.calls, ∀ j, j < x.length →
        lo (j+1) ≤ x.getD j 0 ∧ x.getD j 0 ≤ hi (j+1)) →
      ∀ x ∈ (go1_loop solver neighborhood lo hi fuel2 fuel1 s).calls, ∀ j, j < x.length →
        lo (j+1) ≤ x.getD j 0 ∧ x.getD j 0 ≤ hi (j+1) := by
  intro fuel1
  induction fuel1 with
  | zero => intro s h; exact h
  | succ fuel ih =>
    intro s h
    have hc : ∀ x ∈ s.calls ++
        (dict_pop0 (my_neighbors s.ext_var neighborhood true lo hi true)).map
          (fun p => p.2), ∀ j, j < x.length →
        lo (j+1) ≤ x.getD j 0 ∧ x.getD j 0 ≤ hi (j+1) := by
      intro x hx
      rcases List.mem_append.mp hx with hx1 | hx2
      · exact h x hx1
      · obtain ⟨p, hp, hpe⟩ := List.mem_map.mp hx2
        have hpm : p ∈ my_neighbors s.ext_var neighborhood true lo hi true :=
          List.mem_of_mem_filter hp
        obtain ⟨hbnd, hlen⟩ := my_neighbors_mem_bounds s.ext_var neighborhood lo hi true p hpm
        intro j hj
        rw [← hpe] at hj ⊢
        exact inBoundsUpTo_spec p.2 s.ext_var.length lo hi hbnd j (Nat.lt_of_lt_of_le hj hlen)
    by_cases himp : (evaluate_neighbors solver
        (my_neighbors s.ext_var neighborhood true lo hi true)
        s.init s.fmin tolDefault).1.improve = true
    · simp only [go1_loop]
      rw [if_pos himp]
      apply ih
      exact go2_loop_calls_inv solver lo hi
        ((List.lookup (evaluate_neighbors solver
            (my_neighbors s.ext_var neighborhood true lo hi true)
            s.init s.fmin tolDefault).1.best_dir neighborhood).getD [])
        fuel2
        ⟨(evaluate_neighbors solver (my_neighbors s.ext_var neighborhood true lo hi true)
            s.init s.fmin tolDefault).1.fmin,
         (evaluate_neighbors solver (my_neighbors s.ext_var neighborhood true lo hi true)
            s.init s.fmin tolDefault).1.best_var,
         (evaluate_neighbors solver (my_neighbors s.ext_var neighborhood true lo hi true)
            s.init s.fmin tolDefault).1.best_init,
         s.route ++
           [((evaluate_neighbors solver (my_neighbors s.ext_var neighborhood true lo hi true)
               s.init s.fmin tolDefault).1.best_var,
             (evaluate_neighbors solver (my_neighbors s.ext_var neighborhood true lo hi true)
               s.init s.fmin tolDefault).1.fmin)],
         s.calls ++ (dict_pop0 (my_neighbors s.ext_var neighborhood true lo hi true)).map
           (fun p => p.2)⟩
        hc
    · simp only [go1_loop]
      rw [if_neg himp]
      exact hc

/-- C2: in a `dsda(NT, '2')` run, every candidate vector handed to the
continuous subproblem solver from the loops — an EXPLORE neighbor or a
LINE-SEARCH step — has every coordinate within the declared integer bound
dicts (`min_allowed`/`max_allowed`, hardcoded to `[1, 5]`, which is
`[1, NT]` for the `NT = 5` run of the module's main block); out-of-bound
vectors are filtered out before any solve is attempted. -/
theorem claim_C2_solver_calls_within_bounds {Init : Type} (solver : Solver Init)
    (v1 v2 : Int) (fuel1 fuel2 : Nat) (x : List Int)
    (hx : x ∈ (dsda solver v1 v2 fuel1 fuel2).calls) :
    inDsdaBox x := by
  intro j hj
  exact go1_loop_calls_inv solver (neighborhood_k_eq_2 (external_init v1 v2).length)
    dsdaLo dsdaHi fuel2 fuel1
    ⟨external_init v1 v2, (solver (external_init v1 v2) none).init,
     (solver (external_init v1 v2) none).obj,
     [(external_init v1 v2, (solver (external_init v1 v2) none).obj)], []⟩
    (fun y hy => absurd hy (List.not_mem_nil y))
    x hx j hj

/-- C2 witness: a concrete run whose EXPLORE phase solves four neighbors. -/
theorem claim_C2_solver_calls_within_bounds_witness :
    [4, 2] ∈ (dsda errorSolver 3 2 1 1).calls ∧ inDsdaBox [4, 2] :=
  ⟨by decide, claim_C2_solver_calls_within_bounds errorSolver 3 2 1 1 [4, 2] (by decide)⟩

/-- C7: for every dimension `n ≥ 1`, `neighborhood_k_eq_2 n` has exactly
`2n` entries keyed `1..2n`; for every `i` with `1 ≤ i ≤ n` the entry keyed
`i` is the positive unit vector along coordinate `i` and the entry keyed
`i+n` is its additive inverse, the negative unit vector along coordinate
`i`. -/
theorem claim_C7_neighborhood_k_eq_2_signed_units (n i : Nat)
    (hn : 1 ≤ n) (h1 : 1 ≤ i) (h2 : i ≤ n) :
    (neighborhood_k_eq_2 n).length = 2*n ∧
    (neighborhood_k_eq_2 n).map Prod.fst = (List.range (2*n)).map (fun t => t+1) ∧
    List.lookup i (neighborhood_k_eq_2 n) =
      some ((List.range n).map (fun j => if j+1 = i then (1 : Int) else 0)) ∧
    List.lookup (i+n) (neighborhood_k_eq_2 n) =
      some ((List.range n).map (fun j => if j+1 = i then (-1 : Int) else 0)) ∧
    List.lookup (i+n) (neighborhood_k_eq_2 n) =
      some (((List.range n).map (fun j => if j+1 = i then (1 : Int) else 0)).map
        (fun v => -v)) := by
  refine ⟨by simp [neighborhood_k_eq_2], by simp [neighborhood_k_eq_2, List.map_map], ?_, ?_, ?_⟩
  · rw [neighborhood_k_eq_2, lookup_range_map (nhDirection n) (2*n) i h1 (by omega)]
    refine congrArg some ?_
    rw [nhDirection]
    refine List.map_congr_left ?_
    intro j hj
    rw [List.mem_range] at hj
    have hlt : i - 1 < n := by omega
    rw [if_pos hlt]
    by_cases hji : j + 1 = i
    · rw [if_pos (by omega), if_pos hji]
    · rw [if_neg (by omega), if_neg hji]
  · rw [neighborhood_k_eq_2, lookup_range_map (nhDirection n) (2*n) (i+n) (by omega) (by omega)]
    refine congrArg some ?_
    rw [nhDirection]
    refine List.map_congr_left ?_
    intro j hj
    rw [List.mem_range] at hj
    have hge : ¬ (i + n - 1 < n) := by omega
    rw [if_neg hge]
    by_cases hji : j + 1 = i
    · rw [if_pos (by omega), if_pos hji]
    · rw [if_neg (by omega), if_neg hji]
  · rw [neighborhood_k_eq_2, lookup_range_map (nhDirection n) (2*n) (i+n) (by omega) (by omega)]
    refine congrArg some ?_
    rw [nhDirection, List.map_map]
    refine List.map_congr_left ?_
    intro j hj
    rw [List.mem_range] at hj
    have hge : ¬ (i + n - 1 < n) := by omega
    rw [if_neg hge]
    by_cases hji : j + 1 = i
    · rw [if_pos (by omega)]
      simp [hji]
    · rw [if_neg (by omega)]
      simp [hji]

/-- C3 counterexample: for start `[3,2]` with bounds `[1,5]` and the
asymmetry filter active, the neighbor `[3,3]` (key `2`) survives the
filtering, because its delta `x2 - x1 = 0` is not strictly positive — the
claim's assertion that `[3,3]` is excluded is false on the code. -/
theorem claim_C3_counterexample_3_3_kept :
    List.lookup 2 (my_neighbors [3, 2] (neighborhood_k_eq_2 2) true
      (fun _ => 1) (fun _ => 5) true) = some [3, 3] := by
  decide

/-- C3 (amended): for start `[3,2]` with `N=5`, `k=2` neighborhoods, bounds
`[1,5]` and the asymmetry filter active, the filtered mapping is exactly
`{0:[3,2], 1:[4,2], 2:[3,3], 3:[2,2], 4:[3,1]}`: every candidate passes the
box bounds and the filter `x2 - x1 > 0` removes nothing; in particular
`[3,3]` is kept since `x2 - x1 = 0` satisfies `x2 <= x1`. -/
theorem claim_C3_filtered_candidates_amended :
    my_neighbors [3, 2] (neighborhood_k_eq_2 2) true (fun _ => 1) (fun _ => 5) true =
      [(0, [3, 2]), (1, [4, 2]), (2, [3, 3]), (3, [2, 2]), (4, [3, 1])] := by
  decide

/-- C9: every Reformulation Entry produced by the scanner has its
`Boolean_vars_ordered_index` non-decreasing: the entry's Boolean variables
are sorted ascending by their reference-set index value before being
stored (the single-dimension branch is the special case with no other
index dimensions). -/
theorem claim_C9_ordered_index_values_sorted (constraints : List (Nat × List BoolArg))
    (e : RefEntry) (he : e ∈ get_external_information constraints) :
    List.Sorted (fun a b => a ≤ b) e.Boolean_vars_ordered_index := by
  unfold get_external_information at he
  obtain ⟨c, _, hce⟩ := List.mem_filterMap.mp he
  unfold process_exactly at hce
  by_cases hv : verification_Other_Sets c.2 = true
  · rw [if_pos hv] at hce
    have hce2 := Option.some.inj hce
    rw [← hce2]
    show List.Sorted (fun a b => a ≤ b) ((sorted_args c.2).map (fun a => a.refVal))
    unfold List.Sorted
    rw [List.pairwise_map]
    unfold sorted_args
    have hs := @List.sorted_insertionSort BoolArg (fun a b => a.refVal ≤ b.refVal)
      (fun a b => Int.decLe a.refVal b.refVal)
      ⟨fun a b => le_total a.refVal b.refVal⟩
      ⟨fun a b c2 hab hbc => le_trans hab hbc⟩
      c.2
    exact hs
  · rw [if_neg hv] at hce
    exact absurd hce (by simp)

/-- C9 witness at a concrete `exactly(1, ...)` constraint with unsorted
arguments. -/
theorem claim_C9_ordered_index_values_sorted_witness :
    (⟨1, [1, 2, 3]⟩ : RefEntry) ∈ get_external_information
      [(1, [⟨3, []⟩, ⟨1, []⟩, ⟨2, []⟩])] ∧
    List.Sorted (fun a b => a ≤ b) (RefEntry.mk 1 [1, 2, 3]).Boolean_vars_ordered_index :=
  ⟨by decide,
    claim_C9_ordered_index_values_sorted [(1, [⟨3, []⟩, ⟨1, []⟩, ⟨2, []⟩])]
      ⟨1, [1, 2, 3]⟩ (by decide)⟩

/-! Helper lemmas characterizing the Boolean-fixing passes of
`external_ref`. -/

theorem fix_slot_inner_spec (xp : Int) :
    ∀ (numB : Nat) (st : Nat → Option Bool) (c : Nat),
      fix_slot_inner xp numB st c =
        if c < numB ∧ xp = ((c : Int) + 1) then some true else st c := by
  intro numB
  induction numB with
  | zero =>
    intro st c
    simp only [fix_slot_inner]
    rw [if_neg (by rintro ⟨h, _⟩; omega)]
  | succ k ih =>
    intro st c
    simp only [fix_slot_inner]
    by_cases hx : xp = ((k : Int) + 1)
    · rw [if_pos hx]
      show (if c = k then some true else fix_slot_inner xp k st c) = _
      by_cases hck : c = k
      · subst hck
        rw [if_pos rfl, if_pos ⟨Nat.lt_succ_self c, hx⟩]
      · rw [if_neg hck, ih]
        refine if_congr ?_ rfl rfl
        constructor
        · rintro ⟨hlt, hxe⟩
          exact ⟨by omega, hxe⟩
        · rintro ⟨hlt, hxe⟩
          exact ⟨by omega, hxe⟩
    · rw [if_neg hx, ih]
      refine if_congr ?_ rfl rfl
      constructor
      · rintro ⟨hlt, hxe⟩
        exact ⟨by omega, hxe⟩
      · rintro ⟨hlt, hxe⟩
        refine ⟨?_, hxe⟩
        by_cases hck : c = k
        · subst hck
          exact absurd hxe hx
        · omega

theorem fix_slots_spec (x : List Int) (off numB : Nat) :
    ∀ (en : Nat) (st : Nat → Option Bool) (c : Nat),
      fix_slots x off numB en st c =
        if c < numB ∧ ∃ j, j < en ∧ x.getD (off + j) 0 = ((c : Int) + 1)
        then some true else st c := by
  intro en
  induction en with
  | zero =>
    intro st c
    simp only [fix_slots]
    rw [if_neg (by rintro ⟨_, j, hj, _⟩; omega)]
  | succ en ih =>
    intro st c
    simp only [fix_slots]
    rw [fix_slot_inner_spec, ih]
    by_cases h1 : c < numB ∧ x.getD (off + en) 0 = ((c : Int) + 1)
    · rw [if_pos h1, if_pos ⟨h1.1, en, Nat.lt_succ_self en, h1.2⟩]
    · rw [if_neg h1]
      by_cases h2 : c < numB ∧ ∃ j, j < en ∧ x.getD (off + j) 0 = ((c : Int) + 1)
      · obtain ⟨hcn, j, hj, hxe⟩ := h2
        rw [if_pos ⟨hcn, j, hj, hxe⟩, if_pos ⟨hcn, j, by omega, hxe⟩]
      · rw [if_neg h2, if_neg ?_]
        rintro ⟨hcn, j, hj, hxe⟩
        by_cases hje : j = en
        · subst hje
          exact h1 ⟨hcn, hxe⟩
        · exact h2 ⟨hcn, j, by omega, hxe⟩

theorem entryOffset_cons (e : RefEntry) (es : List RefEntry) (i : Nat) :
    entryOffset (e :: es) (i + 1) = e.exactly_number + entryOffset es i := by
  unfold entryOffset
  rw [List.take_succ_cons, List.map_cons, List.sum_cons]

theorem external_ref_entry_cell (x : List Int) :
    ∀ (entries : List RefEntry) (off i : Nat), i < entries.length →
      ∀ c, c < (entries.getD i default).numBooleans →
        (pass2 entries (pass1 x off entries)).getD i (fun _ => none) c =
          (if ∃ j, j < (entries.getD i default).exactly_number ∧
              x.getD (off + entryOffset entries i + j) 0 = ((c : Int) + 1)
           then some true else some false) := by
  intro entries
  induction entries with
  | nil =>
    intro off i hi
    simp at hi
  | cons e es ih =>
    intro off i hi c hc
    cases i with
    | zero =>
      have hc2 : c < e.numBooleans := hc
      show fix_false_pass e.numBooleans
        (fix_slots x off e.numBooleans e.exactly_number (fun _ => none)) c =
        (if ∃ j, j < e.exactly_number ∧ x.getD (off + j) 0 = ((c : Int) + 1)
         then some true else some false)
      have hslots := fix_slots_spec x off e.numBooleans e.exactly_number (fun _ => none) c
      by_cases hex : ∃ j, j < e.exactly_number ∧ x.getD (off + j) 0 = ((c : Int) + 1)
      · rw [if_pos hex]
        have hval : fix_slots x off e.numBooleans e.exactly_number (fun _ => none) c =
            some true := by
          rw [hslots, if_pos ⟨hc2, hex⟩]
        unfold fix_false_pass
        rw [if_pos hc2, hval]
      · rw [if_neg hex]
        have hval : fix_slots x off e.numBooleans e.exactly_number (fun _ => none) c =
            none := by
          rw [hslots, if_neg (by rintro ⟨_, hex2⟩; exact hex hex2)]
        unfold fix_false_pass
        rw [if_pos hc2, hval]
    | succ i2 =>
      have hlen : i2 < es.length := by simpa using hi
      have hc2 : c < (es.getD i2 default).numBooleans := hc
      have h := ih (off + e.exactly_number) i2 hlen c hc2
      rw [show off + entryOffset (e :: es) (i2 + 1) =
          off + e.exactly_number + entryOffset es i2 from by rw [entryOffset_cons]; omega]
      exact h

/-- C1: for every reformulation map and external vector `x` whose slot
values for entry `i` all lie in `[1, len(Boolean_vars)]`, `external_ref`
fixes, for each repetition slot `p` of the entry, the Boolean at sorted
position `x[p]-1` to `True` (by construction its reference-set index is
`Boolean_vars_ordered_index[x[p]-1]`), a Boolean of the entry is `True`
exactly when some slot selects it, and every Boolean not selected by any
slot is fixed `False`. -/
theorem claim_C1_external_ref_round_trip (entries : List RefEntry) (x : List Int)
    (i : Nat) (hi : i < entries.length)
    (hx : ∀ j, j < (entries.getD i default).exactly_number →
      1 ≤ x.getD (entryOffset entries i + j) 0 ∧
      x.getD (entryOffset entries i + j) 0 ≤
        ((entries.getD i default).numBooleans : Int)) :
    externalRefSpec entries x i := by
  have hcell0 : ∀ c, c < (entries.getD i default).numBooleans →
      entryState x entries i c =
        (if ∃ j, j < (entries.getD i default).exactly_number ∧
            x.getD (entryOffset entries i + j) 0 = ((c : Int) + 1)
         then some true else some false) := by
    intro c hc
    have h := external_ref_entry_cell x entries 0 i hi c hc
    simpa only [entryState, external_ref, Nat.zero_add] using h
  unfold externalRefSpec
  refine ⟨?_, ?_, ?_⟩
  · intro j hj
    obtain ⟨h1, h2⟩ := hx j hj
    have hc : (x.getD (entryOffset entries i + j) 0 - 1).toNat <
        (entries.getD i default).numBooleans := by omega
    rw [hcell0 _ hc]
    rw [if_pos ⟨j, hj, by omega⟩]
  · intro c hc
    rw [hcell0 c hc]
    by_cases hex : ∃ j, j < (entries.getD i default).exactly_number ∧
        x.getD (entryOffset entries i + j) 0 = ((c : Int) + 1)
    · rw [if_pos hex]
      exact ⟨fun _ => hex, fun _ => rfl⟩
    · rw [if_neg hex]
      constructor
      · intro h
        exact absurd (Option.some.inj h) (by simp)
      · intro hex2
        exact absurd hex2 hex
  · intro c hc hnone
    rw [hcell0 c hc]
    rw [if_neg (by rintro ⟨j, hj, hxe⟩; exact hnone j hj hxe)]

/-- C1 witness: one entry with three Booleans (reference indices
`[10, 20, 30]`), one repetition slot, external vector `[2]`. -/
theorem claim_C1_external_ref_round_trip_witness :
    (0 < ([⟨1, [10, 20, 30]⟩] : List RefEntry).length ∧
     (∀ j, j < (([⟨1, [10, 20, 30]⟩] : List RefEntry).getD 0 default).exactly_number →
       1 ≤ ([2] : List Int).getD (entryOffset [⟨1, [10, 20, 30]⟩] 0 + j) 0 ∧
       ([2] : List Int).getD (entryOffset [⟨1, [10, 20, 30]⟩] 0 + j) 0 ≤
         ((([⟨1, [10, 20, 30]⟩] : List RefEntry).getD 0 default).numBooleans : Int))) ∧
    externalRefSpec [⟨1, [10, 20, 30]⟩] [2] 0 :=
  ⟨⟨by decide, by decide⟩,
    claim_C1_external_ref_round_trip [⟨1, [10, 20, 30]⟩] [2] 0 (by decide) (by decide)⟩

/-- C7 witness at `n = 2`, `i = 1`. -/
theorem claim_C7_neighborhood_k_eq_2_signed_units_witness :
    (1 ≤ 2 ∧ 1 ≤ 1 ∧ 1 ≤ 2) ∧
    ((neighborhood_k_eq_2 2).length = 2*2 ∧
    (neighborhood_k_eq_2 2).map Prod.fst = (List.range (2*2)).map (fun t => t+1) ∧
    List.lookup 1 (neighborhood_k_eq_2 2) =
      some ((List.range 2).map (fun j => if j+1 = 1 then (1 : Int) else 0)) ∧
    List.lookup (1+2) (neighborhood_k_eq_2 2) =
      some ((List.range 2).map (fun j => if j+1 = 1 then (-1 : Int) else 0)) ∧
    List.lookup (1+2) (neighborhood_k_eq_2 2) =
      some (((List.range 2).map (fun j => if j+1 = 1 then (1 : Int) else 0)).map
        (fun v => -v))) :=
  ⟨⟨by decide, by decide, by decide⟩,
    claim_C7_neighborhood_k_eq_2_signed_units 2 1 (by decide) (by decide) (by decide)⟩

end DsdaGdp
